import Mathlib

/-!
# Proxy pool of `main.go`

A shallow embedding of the proxy pool (`proxyList`, `proxyIndex`, `usedProxies`,
`rateLimitedProxies`) and of the three operations that run under `proxyLock`:
`getNewProxy`, `removeProxy` and `releaseProxyLater`, together with the detached
timer goroutines started by `releaseProxyLater` and the retry dispatcher of `main`.

Every critical section (the code between `proxyLock.Lock()` and `proxyLock.Unlock()`)
is one atomic step of the model; goroutine interleavings are sequences of such steps.
-/

namespace ProxyPool

/-! ## Go maps `map[string]bool` -/

/-- A Go `map[string]bool`: `none` means that the key has no entry. -/
abbrev FlagMap := String → Option Bool

/-- The literal `map[string]bool{}` and `make(map[string]bool)`. -/
def FlagMap.empty : FlagMap := fun _ => none

/-- The index expression `m[k]`: the zero value `false` when the key has no entry. -/
def FlagMap.get (m : FlagMap) (k : String) : Bool := (m k).getD false

/-- The assignment `m[k] = b`. -/
def FlagMap.set (m : FlagMap) (k : String) (b : Bool) : FlagMap :=
  fun x => if x = k then some b else m x

/-- The call `delete(m, k)`. -/
def FlagMap.delete (m : FlagMap) (k : String) : FlagMap :=
  fun x => if x = k then none else m x

/-! ## The pool -/

/-- The package-level variables guarded by `proxyLock`. `proxyIndex` is a Go `int`. -/
structure Pool where
  proxyList : List String
  proxyIndex : Int
  usedProxies : FlagMap
  rateLimitedProxies : FlagMap

/-- The pool right after `proxyList = proxies` in `main`: cursor 0, both maps empty. -/
def Pool.fresh (proxies : List String) : Pool :=
  { proxyList := proxies, proxyIndex := 0,
    usedProxies := FlagMap.empty, rateLimitedProxies := FlagMap.empty }

/-- Outcome of one locked pass of `getNewProxy` (lines 33-54). -/
inductive Scan where
  /-- line 51, `return p, true`. -/
  | found (p : String) (s : Pool)
  /-- the inner loop ended (line 54); the flag is `foundRateLimited`. -/
  | done (foundRateLimited : Bool) (s : Pool)
  /-- `proxyList[proxyIndex]` with an index out of range. -/
  | crash
  /-- the model ran out of fuel before the inner loop ended. -/
  | timeout

/-- The inner loop `for proxyIndex < len(proxyList)` of `getNewProxy`, lines 36-52.
`fuel` bounds the number of iterations. -/
def scanLoop : Nat → Pool → Bool → Scan
  | fuel, s, foundRateLimited =>
    if s.proxyIndex < (s.proxyList.length : Int) then
      match fuel with
      | 0 => Scan.timeout
      | fuel + 1 =>
        if s.proxyIndex < 0 then Scan.crash
        else
          match s.proxyList.get? s.proxyIndex.toNat with
          | none => Scan.crash
          | some p =>
            let s1 : Pool := { s with proxyIndex := s.proxyIndex + 1 }
            if s1.usedProxies.get p then scanLoop fuel s1 foundRateLimited
            else if s1.rateLimitedProxies.get p then scanLoop fuel s1 true
            else Scan.found p { s1 with usedProxies := s1.usedProxies.set p true }
    else Scan.done foundRateLimited s

/-- One locked pass of `getNewProxy`: `var foundRateLimited bool` and then the inner
loop, which runs at most `len(proxyList) - proxyIndex` times. -/
def scanPass (s : Pool) : Scan :=
  scanLoop ((s.proxyList.length : Int) - s.proxyIndex).toNat s false

/-- The loop `for i, p := range proxyList` of `removeProxy`, lines 72-78: `i` is the
index of the head of the remaining list, `newList` and `proxyIndex` the loop state. -/
def removeLoop (target : String) : List String → Nat → List String → Int → List String × Int
  | [], _, newList, proxyIndex => (newList, proxyIndex)
  | p :: rest, i, newList, proxyIndex =>
    if p ≠ target then removeLoop target rest (i + 1) (newList ++ [p]) proxyIndex
    else if (i : Int) < proxyIndex then removeLoop target rest (i + 1) newList (proxyIndex - 1)
    else removeLoop target rest (i + 1) newList proxyIndex

/-- The function `removeProxy`, lines 66-86. -/
def removeProxy (s : Pool) (target : String) : Pool :=
  let r := removeLoop target s.proxyList 0 [] s.proxyIndex
  { proxyList := r.1, proxyIndex := r.2,
    usedProxies := s.usedProxies.delete target,
    rateLimitedProxies := s.rateLimitedProxies.delete target }

/-- The function `releaseProxyLater`, lines 88-101, on the pool: line 91. The goroutine
it starts is recorded in `Sys.timers` by `step`. -/
def releaseProxyLater (s : Pool) (proxy : String) : Pool :=
  { s with rateLimitedProxies := s.rateLimitedProxies.set proxy true }

/-- The goroutine started by `releaseProxyLater` once it holds the lock, lines 97-98. -/
def timerFires (s : Pool) (proxy : String) : Pool :=
  { s with rateLimitedProxies := s.rateLimitedProxies.set proxy false,
           usedProxies := s.usedProxies.set proxy false }

/-! ## Goroutines sharing the pool -/

/-- The pool together with the timer goroutines of `releaseProxyLater` that are still
asleep in `time.Sleep(delay)`. A timer is recorded with the number of the call that
started it and the `proxy` it captured; the delay itself only decides when the timer
is scheduled, which the interleaving leaves open. -/
structure Sys where
  pool : Pool
  timers : List (Nat × String)
  nextTimer : Nat

/-- The program state when `main` has loaded `proxies.txt`. -/
def Sys.fresh (proxies : List String) : Sys :=
  { pool := Pool.fresh proxies, timers := [], nextTimer := 0 }

/-- The critical sections a goroutine can run. -/
inductive Op where
  /-- one locked pass of `getNewProxy`. -/
  | scan
  /-- a call `releaseProxyLater(proxy, delay)`. -/
  | release (proxy : String)
  /-- the timer goroutine of call number `id` wakes up and takes the lock. -/
  | expire (id : Nat)
  /-- a call `removeProxy(target)`. -/
  | remove (target : String)
  deriving DecidableEq

/-- What a critical section reports. -/
inductive Event where
  /-- the pass returned `(p, true)`. -/
  | acquired (p : String)
  /-- the pass reached the end of `proxyList`; the flag is `foundRateLimited`. -/
  | notFound (foundRateLimited : Bool)
  /-- `releaseProxyLater` started timer `id` for `proxy`. -/
  | scheduled (id : Nat) (proxy : String)
  /-- timer `id` cleared the flags of `proxy`. -/
  | fired (id : Nat) (proxy : String)
  /-- `removeProxy(target)` returned. -/
  | removed (target : String)
  deriving DecidableEq

/-- One critical section. `none`: the operation cannot run (no such sleeping timer) or
the pass fails with an index out of range. -/
def step (s : Sys) : Op → Option (Sys × Event)
  | Op.scan =>
    match scanPass s.pool with
    | Scan.found p pool => some ({ s with pool := pool }, Event.acquired p)
    | Scan.done foundRateLimited pool =>
      some ({ s with pool := pool }, Event.notFound foundRateLimited)
    | Scan.crash => none
    | Scan.timeout => none
  | Op.release proxy =>
    some ({ pool := releaseProxyLater s.pool proxy,
            timers := s.timers ++ [(s.nextTimer, proxy)],
            nextTimer := s.nextTimer + 1 }, Event.scheduled s.nextTimer proxy)
  | Op.expire id =>
    match s.timers.find? (fun t => t.1 = id) with
    | none => none
    | some t =>
      some ({ s with pool := timerFires s.pool t.2,
                     timers := s.timers.filter (fun u => u.1 ≠ id) }, Event.fired id t.2)
  | Op.remove target =>
    some ({ s with pool := removeProxy s.pool target }, Event.removed target)

/-- A sequence of critical sections, with the events they report. -/
def run (s : Sys) : List Op → Option (Sys × List Event)
  | [] => some (s, [])
  | op :: ops =>
    match step s op with
    | none => none
    | some (s1, e) =>
      match run s1 ops with
      | none => none
      | some (s2, es) => some (s2, e :: es)

/-- Outcome of a call of `getNewProxy`. -/
inductive Acquire where
  /-- the call returned `(p, found)`. -/
  | ret (p : String) (found : Bool) (s : Sys)
  /-- index out of range. -/
  | crash
  /-- the operations given for the other goroutines cannot run. -/
  | stuck
  /-- the model ran out of fuel: more passes than `fuel`. -/
  | timeout

/-- The function `getNewProxy`, lines 31-64. `fuel` bounds the number of passes of the
outer `for`; `others` lists, for each `time.Sleep(5 * time.Second)` of this call, the
critical sections that other goroutines run meanwhile. -/
def getNewProxy : Nat → List (List Op) → Sys → Acquire
  | 0, _, _ => Acquire.timeout
  | fuel + 1, others, s =>
    match scanPass s.pool with
    | Scan.found p pool => Acquire.ret p true { s with pool := pool }
    | Scan.done false pool => Acquire.ret "" false { s with pool := pool }
    | Scan.done true pool =>
      match run { s with pool := pool } (others.headD []) with
      | none => Acquire.stuck
      | some (s1, _) => getNewProxy fuel others.tail s1
    | Scan.crash => Acquire.crash
    | Scan.timeout => Acquire.timeout

/-- What the worker goroutine of `main` (lines 199-215) does next. -/
inductive WorkerNext where
  /-- `return`: the goroutine ends. -/
  | terminate
  /-- `w.Proxy = newProxy` and the loop goes on. -/
  | rebind (newProxy : String)
  /-- the call of `getNewProxy` did not return. -/
  | undefined
  deriving DecidableEq

/-- One turn of the loop of the worker goroutine, lines 203-213: `success` is the
result of `worker(...)`, `acquire` the outcome of the call of `getNewProxy` that is
made when `success` is false. -/
def workerTurn (success : Bool) (acquire : Acquire) : WorkerNext :=
  if success then WorkerNext.terminate
  else
    match acquire with
    | Acquire.ret newProxy true _ => WorkerNext.rebind newProxy
    | Acquire.ret _ false _ => WorkerNext.terminate
    | _ => WorkerNext.undefined

/-! ## The task queue and the retry dispatcher -/

/-- The type `Task`. -/
structure Task where
  Data : String
  deriving DecidableEq

/-- A buffered Go channel of tasks: its buffer, its capacity and whether it is closed. -/
structure Chan where
  buf : List Task
  cap : Nat
  closed : Bool
  deriving DecidableEq

/-- The call `make(chan Task, n)`. -/
def Chan.make (n : Nat) : Chan := { buf := [], cap := n, closed := false }

/-- The statement `ch <- t` on a channel without waiting receiver. `none`: the send
blocks (buffer full) or panics (channel closed). -/
def Chan.send (c : Chan) (t : Task) : Option Chan :=
  if c.closed then none
  else if c.buf.length < c.cap then some { c with buf := c.buf ++ [t] }
  else none

/-- The call `close(ch)`. -/
def Chan.close (c : Chan) : Chan := { c with closed := true }

/-- A receive by a worker (`for task := range taskQueue`) that takes the first
buffered task. -/
def Chan.recv (c : Chan) : Chan := { c with buf := c.buf.tail }

/-- The loop of lines 169-173 that sends a `Task` for every input line. -/
def fillQueue : Chan → List String → Option Chan
  | c, [] => some c
  | c, line :: rest =>
    match c.send { Data := line } with
    | none => none
    | some c1 => fillQueue c1 rest

/-- The task queue as `main` sets it up, lines 165-174: made with capacity
`len(inputs)`, filled, closed. -/
def mainTaskQueue (inputs : List String) : Option Chan :=
  (fillQueue (Chan.make inputs.length) inputs).map Chan.close

/-- Outcome of the `select` of the retry dispatcher. -/
inductive Redelivery where
  /-- `case taskQueue <- task` was taken. -/
  | requeued (c : Chan)
  /-- `default` was taken: the task is dropped. -/
  | dropped (c : Chan)
  /-- run-time panic `send on closed channel`. -/
  | panicked
  deriving DecidableEq

/-- The `select` of lines 179-183 on a task queue without waiting receiver. In Go a
send on a closed channel is always ready and panics, so `default` is not taken then. -/
def redeliver (c : Chan) (t : Task) : Redelivery :=
  if c.closed then Redelivery.panicked
  else if c.buf.length < c.cap then Redelivery.requeued { c with buf := c.buf ++ [t] }
  else Redelivery.dropped c

/-! ## Predicates used in the statements -/

/-- What a pass of `getNewProxy` that starts in `s` with `foundRateLimited = b0` may
report: a `found` is the first entry from the cursor on with both flags unset; a `done`
means that every entry from the cursor on has a flag set. -/
def ScanSpec (s : Pool) (b0 : Bool) : Scan → Prop
  | Scan.found p s1 =>
    ∃ i : Nat, s.proxyIndex ≤ (i : Int) ∧ s.proxyList.get? i = some p ∧
      s.usedProxies.get p = false ∧ s.rateLimitedProxies.get p = false ∧
      (∀ j : Nat, s.proxyIndex ≤ (j : Int) → j < i → ∀ q, s.proxyList.get? j = some q →
        s.usedProxies.get q = true ∨ s.rateLimitedProxies.get q = true) ∧
      s1 = { s with proxyIndex := (i : Int) + 1, usedProxies := s.usedProxies.set p true }
  | Scan.done b s1 =>
    s1 = { s with proxyIndex := max s.proxyIndex (s.proxyList.length : Int) } ∧
    (∀ j : Nat, s.proxyIndex ≤ (j : Int) → ∀ q, s.proxyList.get? j = some q →
      s.usedProxies.get q = true ∨ s.rateLimitedProxies.get q = true) ∧
    (b = false → b0 = false ∧
      ∀ j : Nat, s.proxyIndex ≤ (j : Int) → ∀ q, s.proxyList.get? j = some q →
        s.usedProxies.get q = true)
  | Scan.crash => False
  | Scan.timeout => False

/-- Whether the event is a pass of `getNewProxy` that returned found=true. -/
def Event.isAcquired : Event → Bool
  | Event.acquired _ => true
  | _ => false

/-- The number of entries from the cursor to the end of the sequence,
`len(proxyList) - proxyIndex`. -/
def Pool.unscanned (s : Pool) : Int := (s.proxyList.length : Int) - s.proxyIndex

/-- The part of the sequence that the scan has not passed yet: the entries at the
indices from the cursor on. -/
def Pool.rest (s : Pool) : List String := s.proxyList.drop s.proxyIndex.toNat

/-- The state reached by the critical sections `ops`, or `s` when they cannot all run. -/
def stateAfter (s : Sys) (ops : List Op) : Sys :=
  match run s ops with
  | some (s1, _) => s1
  | none => s

/-- The events reported by the critical sections `ops`, or none when they cannot all run. -/
def eventsOf (s : Sys) (ops : List Op) : List Event :=
  match run s ops with
  | some (_, es) => es
  | none => []

/-! ## The scan of `getNewProxy` -/

theorem ScanSpec.weaken_start {s : Pool} {b0 : Bool} {r : Scan} (b1 : Bool) (p : String)
    (hidx : 0 ≤ s.proxyIndex)
    (hp : s.proxyList.get? s.proxyIndex.toNat = some p)
    (hflag : s.usedProxies.get p = true ∨ s.rateLimitedProxies.get p = true)
    (hb : b0 = false → b1 = false ∧ s.usedProxies.get p = true)
    (h : ScanSpec { s with proxyIndex := s.proxyIndex + 1 } b0 r) : ScanSpec s b1 r := by
  have key : ∀ j : Nat, s.proxyIndex ≤ (j : Int) → ¬ (s.proxyIndex + 1 ≤ (j : Int)) →
      j = s.proxyIndex.toNat := by
    intro j h1 h2; omega
  cases r with
  | found q s1 =>
    obtain ⟨i, hi, hget, hu, hr, hall, hs1⟩ := h
    refine ⟨i, ?_, hget, hu, hr, ?_, hs1⟩
    · simp only at hi; omega
    · intro j hj hji q1 hq1
      by_cases hj1 : s.proxyIndex + 1 ≤ (j : Int)
      · exact hall j hj1 hji q1 hq1
      · have := key j hj hj1
        subst this
        rw [hp] at hq1
        cases hq1
        exact hflag
  | done b s1 =>
    obtain ⟨hs1, hall, hfalse⟩ := h
    have hlen : s.proxyIndex.toNat < s.proxyList.length := by
      rcases Nat.lt_or_ge s.proxyIndex.toNat s.proxyList.length with h | h
      · exact h
      · rw [List.get?_eq_none.mpr h] at hp; cases hp
    refine ⟨?_, ?_, ?_⟩
    · rw [hs1]
      simp only
      congr 1
      omega
    · intro j hj q1 hq1
      by_cases hj1 : s.proxyIndex + 1 ≤ (j : Int)
      · exact hall j hj1 q1 hq1
      · have := key j hj hj1
        subst this
        rw [hp] at hq1
        cases hq1
        exact hflag
    · intro hb0
      obtain ⟨h0, hu⟩ := hfalse hb0
      obtain ⟨h1, hup⟩ := hb h0
      refine ⟨h1, ?_⟩
      intro j hj q1 hq1
      by_cases hj1 : s.proxyIndex + 1 ≤ (j : Int)
      · exact hu j hj1 q1 hq1
      · have := key j hj hj1
        subst this
        rw [hp] at hq1
        cases hq1
        exact hup
  | crash => exact h
  | timeout => exact h

theorem scanLoop_spec : ∀ (fuel : Nat) (s : Pool) (b0 : Bool), 0 ≤ s.proxyIndex →
    ((s.proxyList.length : Int) - s.proxyIndex).toNat ≤ fuel →
    ScanSpec s b0 (scanLoop fuel s b0) := by
  intro fuel
  induction fuel with
  | zero =>
    intro s b0 h0 hf
    unfold scanLoop
    have : ¬ s.proxyIndex < (s.proxyList.length : Int) := by omega
    simp only [this, if_false]
    refine ⟨?_, ?_, ?_⟩
    · cases s; simp only at this ⊢; congr 1; omega
    · intro j hj q hq
      have := List.get?_eq_some.mp hq
      obtain ⟨hlt, _⟩ := this
      omega
    · intro hb
      refine ⟨hb, ?_⟩
      intro j hj q hq
      obtain ⟨hlt, _⟩ := List.get?_eq_some.mp hq
      omega
  | succ fuel ih =>
    intro s b0 h0 hf
    unfold scanLoop
    by_cases hlt : s.proxyIndex < (s.proxyList.length : Int)
    · have hn : ¬ s.proxyIndex < 0 := by omega
      simp only [hlt, if_true, hn, if_false]
      have hlen : s.proxyIndex.toNat < s.proxyList.length := by omega
      have hget : s.proxyList.get? s.proxyIndex.toNat = some (s.proxyList.get ⟨_, hlen⟩) :=
        List.get?_eq_get hlen
      rw [hget]
      simp only
      generalize s.proxyList.get ⟨_, hlen⟩ = p at hget
      have ih1 := fun b => ih { s with proxyIndex := s.proxyIndex + 1 } b
        (by simp only; omega) (by simp only; omega)
      cases hu : s.usedProxies.get p
      · cases hr : s.rateLimitedProxies.get p
        · simp only [Bool.false_eq_true, if_false]
          refine ⟨s.proxyIndex.toNat, by omega, hget, hu, hr, ?_, ?_⟩
          · intro j hj hji; omega
          · have : ((s.proxyIndex.toNat : Nat) : Int) = s.proxyIndex := by omega
            rw [this]
        · simp only [Bool.false_eq_true, if_false, if_true]
          exact ScanSpec.weaken_start b0 p h0 hget (Or.inr hr) (by intro h; cases h) (ih1 true)
      · simp only [if_true]
        exact ScanSpec.weaken_start b0 p h0 hget (Or.inl hu) (fun h => ⟨h, hu⟩) (ih1 b0)
    · simp only [hlt, if_false]
      refine ⟨?_, ?_, ?_⟩
      · cases s; simp only at hlt ⊢; congr 1; omega
      · intro j hj q hq
        obtain ⟨hl, _⟩ := List.get?_eq_some.mp hq
        omega
      · intro hb
        refine ⟨hb, ?_⟩
        intro j hj q hq
        obtain ⟨hl, _⟩ := List.get?_eq_some.mp hq
        omega

theorem scanPass_spec (s : Pool) (h0 : 0 ≤ s.proxyIndex) : ScanSpec s false (scanPass s) :=
  scanLoop_spec _ s false h0 (le_refl _)

theorem scanPass_crash_of_neg (s : Pool) (h : s.proxyIndex < 0) : scanPass s = Scan.crash := by
  unfold scanPass
  have hlt : s.proxyIndex < (s.proxyList.length : Int) := by omega
  obtain ⟨n, hn⟩ : ∃ n, ((s.proxyList.length : Int) - s.proxyIndex).toNat = n + 1 :=
    ⟨((s.proxyList.length : Int) - s.proxyIndex).toNat - 1, by omega⟩
  rw [hn]
  unfold scanLoop
  simp only [hlt, if_true, h]

theorem scanPass_spec_or_crash (s : Pool) :
    (0 ≤ s.proxyIndex ∧ ScanSpec s false (scanPass s)) ∨
      (s.proxyIndex < 0 ∧ scanPass s = Scan.crash) := by
  rcases le_or_lt 0 s.proxyIndex with h | h
  · exact Or.inl ⟨h, scanPass_spec s h⟩
  · exact Or.inr ⟨h, scanPass_crash_of_neg s h⟩

theorem scanPass_found_spec {s s1 : Pool} {p : String} (h : scanPass s = Scan.found p s1) :
    0 ≤ s.proxyIndex ∧ ScanSpec s false (Scan.found p s1) := by
  rcases scanPass_spec_or_crash s with ⟨h0, hs⟩ | ⟨_, hc⟩
  · rw [h] at hs; exact ⟨h0, hs⟩
  · rw [h] at hc; cases hc

theorem scanPass_done_spec {s s1 : Pool} {b : Bool} (h : scanPass s = Scan.done b s1) :
    0 ≤ s.proxyIndex ∧ ScanSpec s false (Scan.done b s1) := by
  rcases scanPass_spec_or_crash s with ⟨h0, hs⟩ | ⟨_, hc⟩
  · rw [h] at hs; exact ⟨h0, hs⟩
  · rw [h] at hc; cases hc

theorem scanPass_of_end (s : Pool) (h : (s.proxyList.length : Int) ≤ s.proxyIndex) :
    scanPass s = Scan.done false s := by
  unfold scanPass scanLoop
  have : ¬ s.proxyIndex < (s.proxyList.length : Int) := by omega
  simp only [this, if_false]

/-- C1: for every pool state (the cursor is not negative, as in every state the program
reaches: it starts at 0 and no critical section makes it negative), one locked pass of
`getNewProxy` returns the first entry at or after the cursor that has neither flag set,
sets its InUse flag, moves the cursor just past it and changes nothing else; an entry it
returns lies at or after the cursor; and when no entry at or after the cursor is
Available the pass returns nothing, whatever lies before the cursor. -/
theorem getNewProxy_pass_first_available (s : Pool) (h0 : 0 ≤ s.proxyIndex) :
    (∀ (i : Nat) (p : String), s.proxyIndex ≤ (i : Int) → s.proxyList.get? i = some p →
      s.usedProxies.get p = false → s.rateLimitedProxies.get p = false →
      (∀ j : Nat, s.proxyIndex ≤ (j : Int) → j < i → ∀ q, s.proxyList.get? j = some q →
        ¬ (s.usedProxies.get q = false ∧ s.rateLimitedProxies.get q = false)) →
      scanPass s = Scan.found p
        { proxyList := s.proxyList, proxyIndex := (i : Int) + 1,
          usedProxies := s.usedProxies.set p true,
          rateLimitedProxies := s.rateLimitedProxies }) ∧
    (∀ (p : String) (s1 : Pool), scanPass s = Scan.found p s1 →
      ∃ i : Nat, s.proxyIndex ≤ (i : Int) ∧ s.proxyList.get? i = some p) ∧
    ((∀ j : Nat, s.proxyIndex ≤ (j : Int) → ∀ q, s.proxyList.get? j = some q →
        ¬ (s.usedProxies.get q = false ∧ s.rateLimitedProxies.get q = false)) →
      ∃ b, scanPass s = Scan.done b
        { s with proxyIndex := max s.proxyIndex (s.proxyList.length : Int) }) := by
  have hspec := scanPass_spec s h0
  refine ⟨?_, ?_, ?_⟩
  · intro i p hi hget hu hr hleast
    cases hscan : scanPass s with
    | found q s1 =>
      rw [hscan] at hspec
      obtain ⟨k, hk, hkget, hku, hkr, hkall, hs1⟩ := hspec
      have hik : i = k := by
        rcases Nat.lt_trichotomy i k with hlt | heq | hgt
        · rcases hkall i hi hlt p hget with h | h
          · rw [hu] at h; cases h
          · rw [hr] at h; cases h
        · exact heq
        · exact absurd ⟨hku, hkr⟩ (hleast k hk hgt q hkget)
      subst hik
      rw [hget] at hkget
      cases hkget
      rw [hs1]
    | done b s1 =>
      rw [hscan] at hspec
      rcases hspec.2.1 i hi p hget with h | h
      · rw [hu] at h; cases h
      · rw [hr] at h; cases h
    | crash => rw [hscan] at hspec; exact hspec.elim
    | timeout => rw [hscan] at hspec; exact hspec.elim
  · intro p s1 hscan
    rw [hscan] at hspec
    obtain ⟨k, hk, hkget, _⟩ := hspec
    exact ⟨k, hk, hkget⟩
  · intro hnone
    cases hscan : scanPass s with
    | found q s1 =>
      rw [hscan] at hspec
      obtain ⟨k, hk, hkget, hku, hkr, _⟩ := hspec
      exact absurd ⟨hku, hkr⟩ (hnone k hk q hkget)
    | done b s1 =>
      rw [hscan] at hspec
      exact ⟨b, by rw [hspec.1]⟩
    | crash => rw [hscan] at hspec; exact hspec.elim
    | timeout => rw [hscan] at hspec; exact hspec.elim

/-- Witness for C1 on the pool `["a", "b", "c"]` with cursor 1, `b` in use and
`a` available: the pass returns `c` and nothing before the cursor. -/
theorem getNewProxy_pass_first_available_witness :
    scanPass { proxyList := ["a", "b", "c"], proxyIndex := 1,
               usedProxies := FlagMap.empty.set "b" true,
               rateLimitedProxies := FlagMap.empty } =
      Scan.found "c"
        { proxyList := ["a", "b", "c"], proxyIndex := ((2 : Nat) : Int) + 1,
          usedProxies := (FlagMap.empty.set "b" true).set "c" true,
          rateLimitedProxies := FlagMap.empty } :=
  (getNewProxy_pass_first_available
    { proxyList := ["a", "b", "c"], proxyIndex := 1,
      usedProxies := FlagMap.empty.set "b" true,
      rateLimitedProxies := FlagMap.empty } (by decide)).1 2 "c" (by decide) (by decide)
    (by decide) (by decide)
    (by
      intro j hj hlt q hq
      have hj1 : j = 1 := by simp only at hj; omega
      subst hj1
      have : q = "b" := by simpa using hq.symm
      subst this
      decide)

/-! ## Facts about `removeProxy` -/

theorem removeLoop_fst (t : String) : ∀ (l : List String) (i : Nat) (acc : List String)
    (idx : Int), (removeLoop t l i acc idx).1 = acc ++ l.filter (fun p => decide (p ≠ t)) := by
  intro l
  induction l with
  | nil => intro i acc idx; simp [removeLoop]
  | cons p rest ih =>
    intro i acc idx
    unfold removeLoop
    by_cases hp : p = t
    · rw [if_neg (not_not.mpr hp)]
      split <;> simp [ih, hp]
    · rw [if_pos hp, ih]
      simp [hp]

theorem removeLoop_of_not_mem (t : String) : ∀ (l : List String) (i : Nat)
    (acc : List String) (idx : Int), t ∉ l → removeLoop t l i acc idx = (acc ++ l, idx) := by
  intro l
  induction l with
  | nil => intro i acc idx _; simp [removeLoop]
  | cons p rest ih =>
    intro i acc idx hmem
    have hp : p ≠ t := fun h => hmem (by simp [h])
    have hrest : t ∉ rest := fun h => hmem (by simp [h])
    unfold removeLoop
    rw [if_pos hp, ih _ _ _ hrest]
    simp

/-- The loop of `removeProxy` never raises the cursor, never makes a cursor that is not
negative negative, and never lets the number of entries from the cursor on grow. -/
theorem removeLoop_snd (t : String) : ∀ (l : List String) (i : Nat) (acc : List String)
    (idx : Int),
    (removeLoop t l i acc idx).2 ≤ idx ∧ (0 ≤ idx → 0 ≤ (removeLoop t l i acc idx).2) ∧
    (((removeLoop t l i acc idx).1.length : Int) - (removeLoop t l i acc idx).2 ≤
      ((acc.length + l.length : Nat) : Int) - idx) := by
  intro l
  induction l with
  | nil => intro i acc idx; simp [removeLoop]
  | cons p rest ih =>
    intro i acc idx
    unfold removeLoop
    by_cases hp : p = t
    · rw [if_neg (not_not.mpr hp)]
      by_cases hi : (i : Int) < idx
      · simp only [hi, if_true]
        obtain ⟨h1, h2, h3⟩ := ih (i + 1) acc (idx - 1)
        refine ⟨by omega, fun _ => h2 (by omega), ?_⟩
        simp only [List.length_cons, Nat.cast_add, Nat.cast_one] at h3 ⊢
        omega
      · simp only [hi, if_false]
        obtain ⟨h1, h2, h3⟩ := ih (i + 1) acc idx
        refine ⟨h1, h2, ?_⟩
        simp only [List.length_cons, Nat.cast_add, Nat.cast_one] at h3 ⊢
        omega
    · rw [if_pos hp]
      obtain ⟨h1, h2, h3⟩ := ih (i + 1) (acc ++ [p]) idx
      refine ⟨h1, h2, ?_⟩
      simp only [List.length_cons, List.length_append, List.length_nil, Nat.cast_add,
        Nat.cast_one] at h3 ⊢
      omega

theorem removeProxy_proxyList (s : Pool) (t : String) :
    (removeProxy s t).proxyList = s.proxyList.filter (fun p => decide (p ≠ t)) := by
  simp [removeProxy, removeLoop_fst]

theorem removeProxy_not_mem (s : Pool) (t : String) : t ∉ (removeProxy s t).proxyList := by
  rw [removeProxy_proxyList]
  simp

theorem removeProxy_mem {s : Pool} {t r : String} (h : r ∈ (removeProxy s t).proxyList) :
    r ∈ s.proxyList := by
  rw [removeProxy_proxyList] at h
  exact (List.mem_filter.mp h).1

theorem removeProxy_measure (s : Pool) (t : String) :
    ((removeProxy s t).proxyList.length : Int) - (removeProxy s t).proxyIndex ≤
      (s.proxyList.length : Int) - s.proxyIndex := by
  have := (removeLoop_snd t s.proxyList 0 [] s.proxyIndex).2.2
  simpa [removeProxy] using this

theorem removeProxy_nonneg (s : Pool) (t : String) (h : 0 ≤ s.proxyIndex) :
    0 ≤ (removeProxy s t).proxyIndex :=
  (removeLoop_snd t s.proxyList 0 [] s.proxyIndex).2.1 h

theorem FlagMap.delete_delete (m : FlagMap) (k : String) :
    (m.delete k).delete k = m.delete k := by
  funext x
  simp only [FlagMap.delete]
  split <;> rfl

/-- C6: applying `removeProxy(t)` twice in succession yields the same pool state (sequence,
cursor, InUse map, RateLimited map) as applying it once. -/
theorem removeProxy_idempotent (s : Pool) (t : String) :
    removeProxy (removeProxy s t) t = removeProxy s t := by
  have hmem : t ∉ (removeProxy s t).proxyList := removeProxy_not_mem s t
  have hloop := removeLoop_of_not_mem t (removeProxy s t).proxyList 0 []
    (removeProxy s t).proxyIndex hmem
  show ({ proxyList := _, proxyIndex := _, usedProxies := _, rateLimitedProxies := _ } : Pool)
    = removeProxy s t
  rw [hloop]
  simp only [List.nil_append]
  have hu : (removeProxy s t).usedProxies.delete t = (removeProxy s t).usedProxies := by
    show (s.usedProxies.delete t).delete t = s.usedProxies.delete t
    exact FlagMap.delete_delete _ _
  have hr : (removeProxy s t).rateLimitedProxies.delete t =
      (removeProxy s t).rateLimitedProxies := by
    show (s.rateLimitedProxies.delete t).delete t = s.rateLimitedProxies.delete t
    exact FlagMap.delete_delete _ _
  rw [hu, hr]

/-! ## Critical sections -/

theorem scanPass_found_facts {s s1 : Pool} {p : String} (h : scanPass s = Scan.found p s1) :
    p ∈ s.proxyList ∧ s.usedProxies.get p = false ∧ s.rateLimitedProxies.get p = false ∧
      s1.proxyList = s.proxyList ∧ s1.rateLimitedProxies = s.rateLimitedProxies ∧
      s1.usedProxies = s.usedProxies.set p true ∧ s.proxyIndex < s1.proxyIndex ∧
      s1.proxyIndex ≤ (s.proxyList.length : Int) ∧ 0 ≤ s.proxyIndex := by
  obtain ⟨h0, i, hi, hget, hu, hr, _, hs1⟩ := scanPass_found_spec h
  obtain ⟨hlt, _⟩ := List.get?_eq_some.mp hget
  subst hs1
  refine ⟨List.get?_mem hget, hu, hr, rfl, rfl, rfl, ?_, ?_, h0⟩
  · show s.proxyIndex < (i : Int) + 1
    omega
  · show (i : Int) + 1 ≤ (s.proxyList.length : Int)
    omega

theorem scanPass_done_facts {s s1 : Pool} {b : Bool} (h : scanPass s = Scan.done b s1) :
    s1 = { s with proxyIndex := max s.proxyIndex (s.proxyList.length : Int) } ∧
      0 ≤ s.proxyIndex := by
  obtain ⟨h0, hs1, _⟩ := scanPass_done_spec h
  exact ⟨hs1, h0⟩

theorem step_scan {s s1 : Sys} {e : Event} (h : step s Op.scan = some (s1, e)) :
    (∃ p pool, scanPass s.pool = Scan.found p pool ∧ s1 = { s with pool := pool } ∧
        e = Event.acquired p) ∨
      (∃ b pool, scanPass s.pool = Scan.done b pool ∧ s1 = { s with pool := pool } ∧
        e = Event.notFound b) := by
  simp only [step] at h
  cases hscan : scanPass s.pool with
  | found p pool =>
    rw [hscan] at h
    simp only [Option.some.injEq, Prod.mk.injEq] at h
    exact Or.inl ⟨p, pool, rfl, h.1.symm, h.2.symm⟩
  | done b pool =>
    rw [hscan] at h
    simp only [Option.some.injEq, Prod.mk.injEq] at h
    exact Or.inr ⟨b, pool, rfl, h.1.symm, h.2.symm⟩
  | crash => rw [hscan] at h; cases h
  | timeout => rw [hscan] at h; cases h

theorem step_release {s s1 : Sys} {e : Event} {p : String}
    (h : step s (Op.release p) = some (s1, e)) :
    s1.pool = releaseProxyLater s.pool p ∧ e = Event.scheduled s.nextTimer p := by
  simp only [step, Option.some.injEq, Prod.mk.injEq] at h
  obtain ⟨h1, h2⟩ := h
  subst h1 h2
  exact ⟨rfl, rfl⟩

theorem step_expire {s s1 : Sys} {e : Event} {id : Nat}
    (h : step s (Op.expire id) = some (s1, e)) :
    ∃ p, (id, p) ∈ s.timers ∧ s1.pool = timerFires s.pool p ∧ e = Event.fired id p := by
  simp only [step] at h
  cases hfind : s.timers.find? (fun t => decide (t.1 = id)) with
  | none => rw [hfind] at h; cases h
  | some t =>
    rw [hfind] at h
    simp only [Option.some.injEq, Prod.mk.injEq] at h
    obtain ⟨h1, h2⟩ := h
    subst h1 h2
    have hmem := List.mem_of_find?_eq_some hfind
    have hid : t.1 = id := by simpa using List.find?_some hfind
    refine ⟨t.2, ?_, rfl, rfl⟩
    rw [← hid]
    exact hmem

theorem step_remove {s s1 : Sys} {e : Event} {t : String}
    (h : step s (Op.remove t) = some (s1, e)) :
    s1.pool = removeProxy s.pool t ∧ e = Event.removed t := by
  simp only [step, Option.some.injEq, Prod.mk.injEq] at h
  obtain ⟨h1, h2⟩ := h
  subst h1 h2
  exact ⟨rfl, rfl⟩

theorem run_cons {s s2 : Sys} {op : Op} {ops : List Op} {evs : List Event}
    (h : run s (op :: ops) = some (s2, evs)) :
    ∃ s1 e es, step s op = some (s1, e) ∧ run s1 ops = some (s2, es) ∧ evs = e :: es := by
  simp only [run] at h
  cases hstep : step s op with
  | none => rw [hstep] at h; cases h
  | some r =>
    obtain ⟨s1, e⟩ := r
    rw [hstep] at h
    simp only at h
    cases hrun : run s1 ops with
    | none => rw [hrun] at h; cases h
    | some r2 =>
      obtain ⟨s3, es⟩ := r2
      rw [hrun] at h
      simp only [Option.some.injEq, Prod.mk.injEq] at h
      exact ⟨s1, e, es, rfl, by rw [hrun, h.1], h.2.symm⟩

theorem run_nil {s s2 : Sys} {evs : List Event} (h : run s [] = some (s2, evs)) :
    s2 = s ∧ evs = [] := by
  simp only [run, Option.some.injEq, Prod.mk.injEq] at h
  exact ⟨h.1.symm, h.2.symm⟩

/-- No critical section adds an entry to `proxyList`. -/
theorem step_mem {s s1 : Sys} {op : Op} {e : Event} (h : step s op = some (s1, e))
    {r : String} (hr : r ∈ s1.pool.proxyList) : r ∈ s.pool.proxyList := by
  cases op with
  | scan =>
    rcases step_scan h with ⟨p, pool, hscan, hs1, _⟩ | ⟨b, pool, hscan, hs1, _⟩
    · subst hs1
      rw [(scanPass_found_facts hscan).2.2.2.1] at hr
      exact hr
    · subst hs1
      rw [(scanPass_done_facts hscan).1] at hr
      exact hr
  | release p =>
    rw [(step_release h).1] at hr
    exact hr
  | expire id =>
    obtain ⟨p, _, hpool, _⟩ := step_expire h
    rw [hpool] at hr
    exact hr
  | remove t =>
    rw [(step_remove h).1] at hr
    exact removeProxy_mem hr

/-- A critical section keeps a cursor that is not negative so. -/
theorem step_nonneg {s s1 : Sys} {op : Op} {e : Event} (h : step s op = some (s1, e))
    (h0 : 0 ≤ s.pool.proxyIndex) : 0 ≤ s1.pool.proxyIndex := by
  cases op with
  | scan =>
    rcases step_scan h with ⟨p, pool, hscan, hs1, _⟩ | ⟨b, pool, hscan, hs1, _⟩
    · subst hs1
      have := (scanPass_found_facts hscan).2.2.2.2.2.2.1
      simp only
      omega
    · subst hs1
      rw [(scanPass_done_facts hscan).1]
      simp only
      omega
  | release p =>
    rw [(step_release h).1]
    exact h0
  | expire id =>
    obtain ⟨p, _, hpool, _⟩ := step_expire h
    rw [hpool]
    exact h0
  | remove t =>
    rw [(step_remove h).1]
    exact removeProxy_nonneg _ _ h0

/-- The number of entries from the cursor on never grows, and it shrinks when a pass
returns a proxy. -/
theorem step_measure {s s1 : Sys} {op : Op} {e : Event} (h : step s op = some (s1, e)) :
    ((s1.pool.proxyList.length : Int) - s1.pool.proxyIndex ≤
        (s.pool.proxyList.length : Int) - s.pool.proxyIndex) ∧
      (∀ p, e = Event.acquired p →
        0 ≤ (s1.pool.proxyList.length : Int) - s1.pool.proxyIndex ∧
        (s1.pool.proxyList.length : Int) - s1.pool.proxyIndex <
          (s.pool.proxyList.length : Int) - s.pool.proxyIndex) := by
  cases op with
  | scan =>
    rcases step_scan h with ⟨p, pool, hscan, hs1, he⟩ | ⟨b, pool, hscan, hs1, he⟩
    · subst hs1
      obtain ⟨_, _, _, hl, _, _, hlt, hle, _⟩ := scanPass_found_facts hscan
      simp only [hl]
      refine ⟨by omega, fun _ _ => ⟨by omega, by omega⟩⟩
    · subst hs1 he
      rw [(scanPass_done_facts hscan).1]
      simp only
      refine ⟨by omega, fun _ hp => by cases hp⟩
  | release p =>
    obtain ⟨hpool, he⟩ := step_release h
    subst he
    rw [hpool]
    exact ⟨le_refl _, fun _ hp => by cases hp⟩
  | expire id =>
    obtain ⟨p, _, hpool, he⟩ := step_expire h
    subst he
    rw [hpool]
    exact ⟨le_refl _, fun _ hp => by cases hp⟩
  | remove t =>
    obtain ⟨hpool, he⟩ := step_remove h
    subst he
    rw [hpool]
    exact ⟨removeProxy_measure _ _, fun _ hp => by cases hp⟩

/-! ## Flags along a run -/

theorem FlagMap.get_set_ne (m : FlagMap) {k r : String} (b : Bool) (h : r ≠ k) :
    (m.set k b).get r = m.get r := by
  simp [FlagMap.get, FlagMap.set, h]

theorem FlagMap.get_set_self (m : FlagMap) (k : String) (b : Bool) :
    (m.set k b).get k = b := by
  simp [FlagMap.get, FlagMap.set]

theorem FlagMap.set_ne (m : FlagMap) {k r : String} (b : Bool) (h : r ≠ k) :
    (m.set k b) r = m r := by
  simp [FlagMap.set, h]

theorem FlagMap.delete_ne (m : FlagMap) {k r : String} (h : r ≠ k) :
    (m.delete k) r = m r := by
  simp [FlagMap.delete, h]

theorem FlagMap.delete_self (m : FlagMap) (k : String) : (m.delete k) k = none := by
  simp [FlagMap.delete]

theorem FlagMap.get_of_eq_some {m : FlagMap} {k : String} {b : Bool} (h : m k = some b) :
    m.get k = b := by
  simp [FlagMap.get, h]

/-- A proxy that is marked InUse, or that is not in the sequence, is not returned by a
pass, and stays so until one of its timers fires. -/
theorem held_step {s s1 : Sys} {op : Op} {e : Event} {r : String}
    (hI : s.pool.usedProxies.get r = true ∨ r ∉ s.pool.proxyList)
    (h : step s op = some (s1, e)) (hf : ∀ id, e ≠ Event.fired id r) :
    (s1.pool.usedProxies.get r = true ∨ r ∉ s1.pool.proxyList) ∧ e ≠ Event.acquired r := by
  cases op with
  | scan =>
    rcases step_scan h with ⟨p, pool, hscan, hs1, he⟩ | ⟨b, pool, hscan, hs1, he⟩
    · subst hs1 he
      obtain ⟨hmem, hu, _, hl, _, hused, _⟩ := scanPass_found_facts hscan
      have hpr : p ≠ r := by
        intro hpr
        subst hpr
        rcases hI with h1 | h1
        · rw [hu] at h1; cases h1
        · exact h1 hmem
      refine ⟨?_, fun hc => hpr (by cases hc; rfl)⟩
      rcases hI with h1 | h1
      · left
        show pool.usedProxies.get r = true
        rw [hused, FlagMap.get_set_ne _ _ (Ne.symm hpr)]
        exact h1
      · right
        show r ∉ pool.proxyList
        rw [hl]
        exact h1
    · subst hs1 he
      rw [(scanPass_done_facts hscan).1]
      exact ⟨hI, fun hc => by cases hc⟩
  | release p =>
    obtain ⟨hpool, he⟩ := step_release h
    subst he
    rw [hpool]
    exact ⟨hI, fun hc => by cases hc⟩
  | expire id =>
    obtain ⟨p, _, hpool, he⟩ := step_expire h
    subst he
    have hpr : r ≠ p := fun hpr => hf id (by rw [hpr])
    rw [hpool]
    refine ⟨?_, fun hc => by cases hc⟩
    rcases hI with h1 | h1
    · left
      show (s.pool.usedProxies.set p false).get r = true
      rw [FlagMap.get_set_ne _ _ hpr]
      exact h1
    · right
      exact h1
  | remove t =>
    obtain ⟨hpool, he⟩ := step_remove h
    subst he
    rw [hpool]
    refine ⟨?_, fun hc => by cases hc⟩
    by_cases htr : r = t
    · right
      rw [htr]
      exact removeProxy_not_mem _ _
    · rcases hI with h1 | h1
      · left
        show (s.pool.usedProxies.delete t).get r = true
        simp only [FlagMap.get, FlagMap.delete_ne _ htr]
        exact h1
      · right
        exact fun hc => h1 (removeProxy_mem hc)

theorem held_run {r : String} : ∀ (ops : List Op) (s s2 : Sys) (evs : List Event),
    (s.pool.usedProxies.get r = true ∨ r ∉ s.pool.proxyList) →
    run s ops = some (s2, evs) → (∀ id, Event.fired id r ∉ evs) →
    (s2.pool.usedProxies.get r = true ∨ r ∉ s2.pool.proxyList) ∧
      Event.acquired r ∉ evs := by
  intro ops
  induction ops with
  | nil =>
    intro s s2 evs hI h _
    obtain ⟨h1, h2⟩ := run_nil h
    subst h1 h2
    exact ⟨hI, by simp⟩
  | cons op ops ih =>
    intro s s2 evs hI h hf
    obtain ⟨s1, e, es, hstep, hrun, hevs⟩ := run_cons h
    subst hevs
    obtain ⟨hI1, hne⟩ := held_step hI hstep (fun id hc => hf id (by rw [hc]; simp))
    obtain ⟨hI2, hnot⟩ := ih s1 s2 es hI1 hrun (fun id hc => hf id (by simp [hc]))
    refine ⟨hI2, ?_⟩
    intro hc
    rcases List.mem_cons.mp hc with h1 | h1
    · exact hne h1.symm
    · exact hnot h1

/-- C2: a pass of `getNewProxy` returns `r` only when the InUse flag of `r` is unset, and
sets it; so, from a freshly populated pool, between two passes that return the same `r`
a release timer for `r` has fired. -/
theorem getNewProxy_never_hands_out_held :
    (∀ (s s1 : Pool) (r : String), scanPass s = Scan.found r s1 →
      s.usedProxies.get r = false ∧ s1.usedProxies.get r = true) ∧
    (∀ (proxies : List String) (before between : List Op) (s1 s2 s3 s4 : Sys)
      (e0 evs : List Event) (r : String),
      run (Sys.fresh proxies) before = some (s1, e0) →
      step s1 Op.scan = some (s2, Event.acquired r) →
      run s2 between = some (s3, evs) →
      step s3 Op.scan = some (s4, Event.acquired r) →
      ∃ id, Event.fired id r ∈ evs) := by
  refine ⟨?_, ?_⟩
  · intro s s1 r h
    obtain ⟨_, hu, _, _, _, hused, _⟩ := scanPass_found_facts h
    exact ⟨hu, by rw [hused, FlagMap.get_set_self]⟩
  · intro proxies before between s1 s2 s3 s4 e0 evs r _ hfirst hrun hsecond
    by_contra hnone
    have hnone1 : ∀ id, Event.fired id r ∉ evs := fun id hc => hnone ⟨id, hc⟩
    have hheld : s2.pool.usedProxies.get r = true := by
      rcases step_scan hfirst with ⟨p, pool, hscan, hs2, he⟩ | ⟨b, pool, _, _, he⟩
      · cases he
        subst hs2
        obtain ⟨_, _, _, _, _, hused, _⟩ := scanPass_found_facts hscan
        show pool.usedProxies.get r = true
        rw [hused, FlagMap.get_set_self]
      · cases he
    obtain ⟨hI3, _⟩ := held_run between s2 s3 evs (Or.inl hheld) hrun hnone1
    exact (held_step hI3 hsecond (fun id hc => by cases hc)).2 rfl

/-- Witness for C2 on the sequence `["a", "a"]`: a pass returns `a`, `a` is released and
its timer fires, and the next pass returns `a` again. -/
theorem getNewProxy_never_hands_out_held_witness :
    ∃ id, Event.fired id "a" ∈
      eventsOf (stateAfter (Sys.fresh ["a", "a"]) [Op.scan]) [Op.release "a", Op.expire 0] :=
  getNewProxy_never_hands_out_held.2 ["a", "a"] [] [Op.release "a", Op.expire 0]
    (Sys.fresh ["a", "a"]) (stateAfter (Sys.fresh ["a", "a"]) [Op.scan])
    (stateAfter (Sys.fresh ["a", "a"]) [Op.scan, Op.release "a", Op.expire 0])
    (stateAfter (Sys.fresh ["a", "a"]) [Op.scan, Op.release "a", Op.expire 0, Op.scan])
    [] _ "a" rfl rfl rfl rfl

/-! ## Rate limiting -/

/-- A proxy whose RateLimited entry is `true` is not returned by a pass, and the entry
stays `true` until one of its timers fires or the proxy is removed. -/
theorem limited_step {s s1 : Sys} {op : Op} {e : Event} {r : String}
    (hL : s.pool.rateLimitedProxies r = some true)
    (h : step s op = some (s1, e)) (hf : ∀ id, e ≠ Event.fired id r)
    (hrem : op ≠ Op.remove r) :
    s1.pool.rateLimitedProxies r = some true ∧ e ≠ Event.acquired r := by
  cases op with
  | scan =>
    rcases step_scan h with ⟨p, pool, hscan, hs1, he⟩ | ⟨b, pool, hscan, hs1, he⟩
    · subst hs1 he
      obtain ⟨_, _, hr, _, hrl, _⟩ := scanPass_found_facts hscan
      refine ⟨?_, ?_⟩
      · show pool.rateLimitedProxies r = some true
        rw [hrl]
        exact hL
      · intro hc
        cases hc
        rw [FlagMap.get_of_eq_some hL] at hr
        cases hr
    · subst hs1 he
      rw [(scanPass_done_facts hscan).1]
      exact ⟨hL, fun hc => by cases hc⟩
  | release p =>
    obtain ⟨hpool, he⟩ := step_release h
    subst he
    rw [hpool]
    refine ⟨?_, fun hc => by cases hc⟩
    show (s.pool.rateLimitedProxies.set p true) r = some true
    by_cases hrp : r = p
    · simp [FlagMap.set, hrp]
    · rw [FlagMap.set_ne _ _ hrp]
      exact hL
  | expire id =>
    obtain ⟨p, _, hpool, he⟩ := step_expire h
    subst he
    have hpr : r ≠ p := fun hpr => hf id (by rw [hpr])
    rw [hpool]
    refine ⟨?_, fun hc => by cases hc⟩
    show (s.pool.rateLimitedProxies.set p false) r = some true
    rw [FlagMap.set_ne _ _ hpr]
    exact hL
  | remove t =>
    obtain ⟨hpool, he⟩ := step_remove h
    subst he
    have htr : r ≠ t := fun htr => hrem (by rw [htr])
    rw [hpool]
    refine ⟨?_, fun hc => by cases hc⟩
    show (s.pool.rateLimitedProxies.delete t) r = some true
    rw [FlagMap.delete_ne _ htr]
    exact hL

theorem limited_run {r : String} : ∀ (ops : List Op) (s s2 : Sys) (evs : List Event),
    s.pool.rateLimitedProxies r = some true →
    run s ops = some (s2, evs) → (∀ id, Event.fired id r ∉ evs) → Op.remove r ∉ ops →
    s2.pool.rateLimitedProxies r = some true ∧ Event.acquired r ∉ evs := by
  intro ops
  induction ops with
  | nil =>
    intro s s2 evs hL h _ _
    obtain ⟨h1, h2⟩ := run_nil h
    subst h1 h2
    exact ⟨hL, by simp⟩
  | cons op ops ih =>
    intro s s2 evs hL h hf hrem
    obtain ⟨s1, e, es, hstep, hrun, hevs⟩ := run_cons h
    subst hevs
    obtain ⟨hL1, hne⟩ := limited_step hL hstep (fun id hc => hf id (by rw [hc]; simp))
      (fun hc => hrem (by rw [hc]; simp))
    obtain ⟨hL2, hnot⟩ := ih s1 s2 es hL1 hrun (fun id hc => hf id (by simp [hc]))
      (fun hc => hrem (by simp [hc]))
    refine ⟨hL2, ?_⟩
    intro hc
    rcases List.mem_cons.mp hc with h1 | h1
    · exact hne h1.symm
    · exact hnot h1

/-- C4 (amended): after `releaseProxyLater(r, d)` has returned, along every sequence of
passes of `getNewProxy`, further calls of `releaseProxyLater` on any proxy, timer expiries
and removals of other proxies, `r` stays marked RateLimited and no pass returns `r` as long
as no release timer for `r` has fired, whichever call started that timer. -/
theorem releaseProxyLater_limited_until_timer (s s2 : Sys) (r : String) (ops : List Op)
    (evs : List Event) (h : run s (Op.release r :: ops) = some (s2, evs))
    (hf : ∀ id, Event.fired id r ∉ evs) (hrem : Op.remove r ∉ ops) :
    s2.pool.rateLimitedProxies r = some true ∧ s2.pool.rateLimitedProxies.get r = true ∧
      Event.acquired r ∉ evs := by
  obtain ⟨s1, e, es, hstep, hrun, hevs⟩ := run_cons h
  subst hevs
  obtain ⟨hpool, he⟩ := step_release hstep
  subst he
  have hL : s1.pool.rateLimitedProxies r = some true := by
    rw [hpool]
    show (s.pool.rateLimitedProxies.set r true) r = some true
    simp [FlagMap.set]
  obtain ⟨hL2, hnot⟩ := limited_run ops s1 s2 es hL hrun (fun id hc => hf id (by simp [hc])) hrem
  refine ⟨hL2, FlagMap.get_of_eq_some hL2, ?_⟩
  intro hc
  rcases List.mem_cons.mp hc with h1 | h1
  · cases h1
  · exact hnot h1

/-- Witness for C4 (amended): `b` is released, then `a` is acquired, released and its
timer fires; `b` is still marked RateLimited and was not returned. -/
theorem releaseProxyLater_limited_until_timer_witness :
    (stateAfter (Sys.fresh ["a", "b"])
        [Op.release "b", Op.scan, Op.release "a", Op.expire 1, Op.scan]).pool.rateLimitedProxies
        "b" = some true ∧
      (stateAfter (Sys.fresh ["a", "b"])
        [Op.release "b", Op.scan, Op.release "a", Op.expire 1, Op.scan]).pool.rateLimitedProxies.get
        "b" = true ∧
      Event.acquired "b" ∉ eventsOf (Sys.fresh ["a", "b"])
        [Op.release "b", Op.scan, Op.release "a", Op.expire 1, Op.scan] :=
  releaseProxyLater_limited_until_timer (Sys.fresh ["a", "b"]) _ "b"
    [Op.scan, Op.release "a", Op.expire 1, Op.scan]
    (eventsOf (Sys.fresh ["a", "b"])
      [Op.release "b", Op.scan, Op.release "a", Op.expire 1, Op.scan]) rfl
    (by
      intro id hc
      have he : eventsOf (Sys.fresh ["a", "b"])
          [Op.release "b", Op.scan, Op.release "a", Op.expire 1, Op.scan] =
          [Event.scheduled 0 "b", Event.acquired "a", Event.scheduled 1 "a",
            Event.fired 1 "a", Event.notFound true] := by decide
      rw [he] at hc
      simp at hc)
    (by decide)

/-- C4 fails as stated: on the sequence `["r"]`, `releaseProxyLater("r", _)` is called
twice (timers 0 and 1). When timer 0 fires, timer 1 of the second call is still asleep,
yet `r` is no longer marked RateLimited and the next pass returns `r`. -/
theorem releaseProxyLater_cleared_by_earlier_timer :
    (stateAfter (Sys.fresh ["r"]) [Op.release "r", Op.release "r", Op.expire 0]).timers
        = [(1, "r")] ∧
      (stateAfter (Sys.fresh ["r"])
        [Op.release "r", Op.release "r", Op.expire 0]).pool.rateLimitedProxies "r"
        = some false ∧
      run (stateAfter (Sys.fresh ["r"]) [Op.release "r", Op.release "r"])
        [Op.expire 0, Op.scan] =
        some (stateAfter (Sys.fresh ["r"])
          [Op.release "r", Op.release "r", Op.expire 0, Op.scan],
          [Event.fired 0 "r", Event.acquired "r"]) ∧
      (stateAfter (Sys.fresh ["r"])
        [Op.release "r", Op.release "r", Op.expire 0, Op.scan]).timers = [(1, "r")] := by
  refine ⟨by decide, by decide, rfl, by decide⟩

/-! ## Removal -/

/-- A proxy that is not in the sequence is not returned by a pass, and it has no map
entry after a critical section that neither releases it nor is one of its timers, if it
had none before. -/
theorem absent_step {s s1 : Sys} {op : Op} {e : Event} {t : String}
    (hA : t ∉ s.pool.proxyList) (h : step s op = some (s1, e)) :
    t ∉ s1.pool.proxyList ∧ e ≠ Event.acquired t ∧
      (s.pool.usedProxies t = none ∧ s.pool.rateLimitedProxies t = none →
        (∀ id, e ≠ Event.scheduled id t) → (∀ id, e ≠ Event.fired id t) →
        s1.pool.usedProxies t = none ∧ s1.pool.rateLimitedProxies t = none) := by
  refine ⟨fun hc => hA (step_mem h hc), ?_, ?_⟩
  · intro hc
    subst hc
    cases op with
    | scan =>
      rcases step_scan h with ⟨p, pool, hscan, _, he⟩ | ⟨b, pool, _, _, he⟩
      · cases he
        exact hA (scanPass_found_facts hscan).1
      · cases he
    | release p => exact absurd (step_release h).2 (fun hc => by cases hc)
    | expire id =>
      obtain ⟨p, _, _, he⟩ := step_expire h
      cases he
    | remove x => exact absurd (step_remove h).2 (fun hc => by cases hc)
  · intro hN hs hf
    cases op with
    | scan =>
      rcases step_scan h with ⟨p, pool, hscan, hs1, he⟩ | ⟨b, pool, hscan, hs1, he⟩
      · subst hs1 he
        obtain ⟨hmem, _, _, _, hrl, hused, _⟩ := scanPass_found_facts hscan
        have htp : t ≠ p := fun hc => hA (by rw [hc]; exact hmem)
        refine ⟨?_, ?_⟩
        · show pool.usedProxies t = none
          rw [hused, FlagMap.set_ne _ _ htp]
          exact hN.1
        · show pool.rateLimitedProxies t = none
          rw [hrl]
          exact hN.2
      · subst hs1 he
        rw [(scanPass_done_facts hscan).1]
        exact hN
    | release p =>
      obtain ⟨hpool, he⟩ := step_release h
      subst he
      have htp : t ≠ p := fun hc => hs s.nextTimer (by rw [hc])
      rw [hpool]
      refine ⟨hN.1, ?_⟩
      show (s.pool.rateLimitedProxies.set p true) t = none
      rw [FlagMap.set_ne _ _ htp]
      exact hN.2
    | expire id =>
      obtain ⟨p, _, hpool, he⟩ := step_expire h
      subst he
      have htp : t ≠ p := fun hc => hf id (by rw [hc])
      rw [hpool]
      refine ⟨?_, ?_⟩
      · show (s.pool.usedProxies.set p false) t = none
        rw [FlagMap.set_ne _ _ htp]
        exact hN.1
      · show (s.pool.rateLimitedProxies.set p false) t = none
        rw [FlagMap.set_ne _ _ htp]
        exact hN.2
    | remove x =>
      obtain ⟨hpool, he⟩ := step_remove h
      subst he
      rw [hpool]
      by_cases htx : t = x
      · subst htx
        exact ⟨FlagMap.delete_self _ _, FlagMap.delete_self _ _⟩
      · refine ⟨?_, ?_⟩
        · show (s.pool.usedProxies.delete x) t = none
          rw [FlagMap.delete_ne _ htx]
          exact hN.1
        · show (s.pool.rateLimitedProxies.delete x) t = none
          rw [FlagMap.delete_ne _ htx]
          exact hN.2

theorem absent_run {t : String} : ∀ (ops : List Op) (s s2 : Sys) (evs : List Event),
    t ∉ s.pool.proxyList → run s ops = some (s2, evs) →
    t ∉ s2.pool.proxyList ∧ Event.acquired t ∉ evs ∧
      (s.pool.usedProxies t = none ∧ s.pool.rateLimitedProxies t = none →
        (∀ id, Event.scheduled id t ∉ evs) → (∀ id, Event.fired id t ∉ evs) →
        s2.pool.usedProxies t = none ∧ s2.pool.rateLimitedProxies t = none) := by
  intro ops
  induction ops with
  | nil =>
    intro s s2 evs hA h
    obtain ⟨h1, h2⟩ := run_nil h
    subst h1 h2
    exact ⟨hA, by simp, fun hN _ _ => hN⟩
  | cons op ops ih =>
    intro s s2 evs hA h
    obtain ⟨s1, e, es, hstep, hrun, hevs⟩ := run_cons h
    subst hevs
    obtain ⟨hA1, hne, hN1⟩ := absent_step hA hstep
    obtain ⟨hA2, hnot, hN2⟩ := ih s1 s2 es hA1 hrun
    refine ⟨hA2, ?_, ?_⟩
    · intro hc
      rcases List.mem_cons.mp hc with h1 | h1
      · exact hne h1.symm
      · exact hnot h1
    · intro hN hs hf
      exact hN2 (hN1 hN (fun id hc => hs id (by rw [hc]; simp))
          (fun id hc => hf id (by rw [hc]; simp)))
        (fun id hc => hs id (by simp [hc])) (fun id hc => hf id (by simp [hc]))

/-- C5 (amended): once `removeProxy(t)` has run, in every state reached by further
critical sections `t` is absent from the sequence and no pass of `getNewProxy` returns it;
`t` has no entry in the InUse map or in the RateLimited map as long as no later
`releaseProxyLater(t, _)` is called and no release timer for `t` fires. -/
theorem removeProxy_permanent (s s2 : Sys) (t : String) (ops : List Op) (evs : List Event)
    (h : run s (Op.remove t :: ops) = some (s2, evs)) :
    t ∉ s2.pool.proxyList ∧ Event.acquired t ∉ evs ∧
      ((∀ id, Event.scheduled id t ∉ evs) → (∀ id, Event.fired id t ∉ evs) →
        s2.pool.usedProxies t = none ∧ s2.pool.rateLimitedProxies t = none) := by
  obtain ⟨s1, e, es, hstep, hrun, hevs⟩ := run_cons h
  subst hevs
  obtain ⟨hpool, he⟩ := step_remove hstep
  subst he
  have hA : t ∉ s1.pool.proxyList := by
    rw [hpool]
    exact removeProxy_not_mem _ _
  have hN : s1.pool.usedProxies t = none ∧ s1.pool.rateLimitedProxies t = none := by
    rw [hpool]
    exact ⟨FlagMap.delete_self _ _, FlagMap.delete_self _ _⟩
  obtain ⟨hA2, hnot, hN2⟩ := absent_run ops s1 s2 es hA hrun
  refine ⟨hA2, ?_, ?_⟩
  · intro hc
    rcases List.mem_cons.mp hc with h1 | h1
    · cases h1
    · exact hnot h1
  · intro hs hf
    exact hN2 hN (fun id hc => hs id (by simp [hc])) (fun id hc => hf id (by simp [hc]))

/-- Witness for C5 (amended): `t` is acquired and released, then removed; afterwards a
pass runs and the pending timer of `t` fires. `t` is gone from the sequence and is not
returned. -/
theorem removeProxy_permanent_witness :
    "t" ∉ (stateAfter (Sys.fresh ["t", "u"])
        [Op.scan, Op.release "t", Op.remove "t", Op.scan, Op.expire 0]).pool.proxyList ∧
      Event.acquired "t" ∉ eventsOf (stateAfter (Sys.fresh ["t", "u"]) [Op.scan, Op.release "t"])
        [Op.remove "t", Op.scan, Op.expire 0] :=
  have h := removeProxy_permanent (stateAfter (Sys.fresh ["t", "u"]) [Op.scan, Op.release "t"])
    (stateAfter (Sys.fresh ["t", "u"])
      [Op.scan, Op.release "t", Op.remove "t", Op.scan, Op.expire 0]) "t"
    [Op.scan, Op.expire 0]
    (eventsOf (stateAfter (Sys.fresh ["t", "u"]) [Op.scan, Op.release "t"])
      [Op.remove "t", Op.scan, Op.expire 0]) rfl
  ⟨h.1, h.2.1⟩

/-- C5 fails as stated: `releaseProxyLater("t", _)` starts timer 0, then `removeProxy("t")`
deletes the entries of `t`; when timer 0 fires it writes `false` for `t` into both maps,
so `t` has an entry in the InUse map and in the RateLimited map again. -/
theorem removeProxy_entries_come_back :
    run (Sys.fresh ["t"]) [Op.release "t", Op.remove "t", Op.expire 0] =
        some (stateAfter (Sys.fresh ["t"]) [Op.release "t", Op.remove "t", Op.expire 0],
          [Event.scheduled 0 "t", Event.removed "t", Event.fired 0 "t"]) ∧
      (stateAfter (Sys.fresh ["t"])
        [Op.release "t", Op.remove "t"]).pool.usedProxies "t" = none ∧
      (stateAfter (Sys.fresh ["t"])
        [Op.release "t", Op.remove "t", Op.expire 0]).pool.usedProxies "t" = some false ∧
      (stateAfter (Sys.fresh ["t"])
        [Op.release "t", Op.remove "t", Op.expire 0]).pool.rateLimitedProxies "t"
        = some false := by
  refine ⟨rfl, by decide, by decide, by decide⟩

/-! ## The retry dispatcher -/

theorem fillQueue_spec : ∀ (inputs : List String) (c : Chan), c.closed = false →
    c.buf.length + inputs.length ≤ c.cap →
    fillQueue c inputs = some { c with buf := c.buf ++ inputs.map (fun l => { Data := l }) } := by
  intro inputs
  induction inputs with
  | nil => intro c _ _; simp [fillQueue]
  | cons line rest ih =>
    intro c hc hcap
    have hlt : c.buf.length < c.cap := by simp only [List.length_cons] at hcap; omega
    simp only [fillQueue, Chan.send, hc, hlt, if_true, Bool.false_eq_true, if_false]
    rw [ih _ rfl (by simp only [List.length_append, List.length_cons, List.length_nil] at hcap ⊢
                     omega)]
    simp

theorem mainTaskQueue_eq (inputs : List String) :
    mainTaskQueue inputs =
      some { buf := inputs.map (fun l => { Data := l }), cap := inputs.length, closed := true } := by
  unfold mainTaskQueue
  rw [fillQueue_spec inputs (Chan.make inputs.length) rfl (by simp [Chan.make])]
  simp [Chan.make, Chan.close]

theorem Chan.closed_iterate_recv (k : Nat) (c : Chan) :
    (Chan.recv^[k] c).closed = c.closed := by
  induction k generalizing c with
  | zero => rfl
  | succ k ih => rw [Function.iterate_succ_apply, ih]; rfl

/-- On a task queue that is not closed, the `select` of the retry dispatcher has the two
outcomes of the drop law: the task is appended once when there is room, and otherwise the
queue is unchanged and the task is dropped. -/
theorem redeliver_open (c : Chan) (t : Task) (hopen : c.closed = false) :
    (c.buf.length < c.cap →
      redeliver c t = Redelivery.requeued { c with buf := c.buf ++ [t] }) ∧
    (c.cap ≤ c.buf.length → redeliver c t = Redelivery.dropped c) := by
  refine ⟨fun h => ?_, fun h => ?_⟩
  · simp [redeliver, hopen, h]
  · have : ¬ c.buf.length < c.cap := by omega
    simp [redeliver, hopen, this]

/-- C7 is violated by the code: with the task queue as `main` sets it up (capacity
`len(inputs)`, filled, closed), and after workers have received any number `k` of tasks,
every execution of the redelivery `select` of the retry dispatcher panics: it neither
appends the task nor takes the `default` branch. -/
theorem retryDispatcher_redelivery_panics (inputs : List String) (t : Task) (k : Nat) :
    ∃ c, mainTaskQueue inputs = some c ∧ c.cap = inputs.length ∧
      redeliver (Chan.recv^[k] c) t = Redelivery.panicked := by
  refine ⟨_, mainTaskQueue_eq inputs, rfl, ?_⟩
  unfold redeliver
  rw [Chan.closed_iterate_recv]
  simp

/-- The redelivery on the input `t1 .. t6` with two workers when `t1` failed: four tasks
have been received, `t5` and `t6` are still queued, and the `select` for `t1` panics. -/
theorem retryDispatcher_panics_on_six_tasks :
    (mainTaskQueue ["t1", "t2", "t3", "t4", "t5", "t6"]).map
        (fun c => ((Chan.recv^[4] c).buf, redeliver (Chan.recv^[4] c) { Data := "t1" })) =
      some ([{ Data := "t5" }, { Data := "t6" }], Redelivery.panicked) := by
  decide

/-! ## Bounded supply and termination -/

theorem run_unscanned : ∀ (ops : List Op) (s s2 : Sys) (evs : List Event),
    run s ops = some (s2, evs) →
    s2.pool.unscanned ≤ s.pool.unscanned ∧ (0 ≤ s.pool.proxyIndex → 0 ≤ s2.pool.proxyIndex) ∧
      evs.countP Event.isAcquired + s2.pool.unscanned.toNat ≤ s.pool.unscanned.toNat := by
  intro ops
  induction ops with
  | nil =>
    intro s s2 evs h
    obtain ⟨h1, h2⟩ := run_nil h
    subst h1 h2
    simp
  | cons op ops ih =>
    intro s s2 evs h
    obtain ⟨s1, e, es, hstep, hrun, hevs⟩ := run_cons h
    subst hevs
    obtain ⟨hle, hacq⟩ := step_measure hstep
    obtain ⟨hle2, hnn2, hcount⟩ := ih s1 s2 es hrun
    simp only [Pool.unscanned] at hle2 hcount ⊢
    refine ⟨by omega, fun h0 => hnn2 (step_nonneg hstep h0), ?_⟩
    cases e with
    | acquired p =>
      obtain ⟨h1, h2⟩ := hacq p rfl
      simp only [List.countP_cons, Event.isAcquired, if_true]
      omega
    | notFound b =>
      simp only [List.countP_cons, Event.isAcquired, Bool.false_eq_true, if_false]
      omega
    | scheduled id p =>
      simp only [List.countP_cons, Event.isAcquired, Bool.false_eq_true, if_false]
      omega
    | fired id p =>
      simp only [List.countP_cons, Event.isAcquired, Bool.false_eq_true, if_false]
      omega
    | removed t =>
      simp only [List.countP_cons, Event.isAcquired, Bool.false_eq_true, if_false]
      omega

theorem getNewProxy_of_end (fuel : Nat) (others : List (List Op)) (s : Sys)
    (h : s.pool.unscanned ≤ 0) : getNewProxy (fuel + 1) others s = Acquire.ret "" false s := by
  have hscan : scanPass s.pool = Scan.done false s.pool :=
    scanPass_of_end s.pool (by simp only [Pool.unscanned] at h; omega)
  simp only [getNewProxy, hscan]

/-- C8: from a freshly populated pool of n proxies, along every sequence of critical
sections at most n passes of `getNewProxy` return found=true: `len(proxyList) - proxyIndex`
never grows and shrinks with every successful pass. For the pool `[p1]`, after the first
successful pass every later call of `getNewProxy` returns found=false at once, and the
worker goroutine whose `worker` call failed ends. -/
theorem getNewProxy_supply_bounded :
    (∀ (proxies : List String) (ops : List Op) (s : Sys) (evs : List Event),
      run (Sys.fresh proxies) ops = some (s, evs) →
      evs.countP Event.isAcquired ≤ proxies.length) ∧
    (∀ (s s1 : Sys) (op : Op) (e : Event), step s op = some (s1, e) →
      s1.pool.unscanned ≤ s.pool.unscanned ∧
        (∀ p, e = Event.acquired p → s1.pool.unscanned < s.pool.unscanned)) ∧
    (∀ (p1 x : String) (before between : List Op) (s1 s2 s3 : Sys) (e0 e1 : List Event),
      run (Sys.fresh [p1]) before = some (s1, e0) →
      step s1 Op.scan = some (s2, Event.acquired x) →
      run s2 between = some (s3, e1) →
      ∀ (fuel : Nat) (others : List (List Op)),
        getNewProxy (fuel + 1) others s3 = Acquire.ret "" false s3 ∧
        workerTurn false (getNewProxy (fuel + 1) others s3) = WorkerNext.terminate) := by
  refine ⟨?_, ?_, ?_⟩
  · intro proxies ops s evs h
    have := (run_unscanned ops _ s evs h).2.2
    simp only [Sys.fresh, Pool.fresh, Pool.unscanned] at this
    omega
  · intro s s1 op e h
    obtain ⟨h1, h2⟩ := step_measure h
    exact ⟨h1, fun p hp => (h2 p hp).2⟩
  · intro p1 x before between s1 s2 s3 e0 e1 hbefore hfirst hbetween fuel others
    have hm1 := (run_unscanned before _ s1 e0 hbefore).1
    have hm2 := ((step_measure hfirst).2 x rfl).2
    have hm3 := (run_unscanned between s2 s3 e1 hbetween).1
    have hend : s3.pool.unscanned ≤ 0 := by
      simp only [Sys.fresh, Pool.fresh, Pool.unscanned, List.length_singleton] at hm1 hm2 hm3 ⊢
      omega
    have hret := getNewProxy_of_end fuel others s3 hend
    refine ⟨hret, ?_⟩
    rw [hret]
    rfl

/-- Witness for C8: on the pool `["p1"]`, after `p1` was acquired, released and its timer
fired, a later call of `getNewProxy` returns found=false and the worker ends. -/
theorem getNewProxy_supply_bounded_witness :
    getNewProxy (0 + 1) []
        (stateAfter (Sys.fresh ["p1"]) [Op.scan, Op.release "p1", Op.expire 0]) =
        Acquire.ret "" false
          (stateAfter (Sys.fresh ["p1"]) [Op.scan, Op.release "p1", Op.expire 0]) ∧
      workerTurn false (getNewProxy (0 + 1) []
        (stateAfter (Sys.fresh ["p1"]) [Op.scan, Op.release "p1", Op.expire 0])) =
        WorkerNext.terminate :=
  getNewProxy_supply_bounded.2.2 "p1" "p1" [] [Op.release "p1", Op.expire 0]
    (Sys.fresh ["p1"]) (stateAfter (Sys.fresh ["p1"]) [Op.scan])
    (stateAfter (Sys.fresh ["p1"]) [Op.scan, Op.release "p1", Op.expire 0]) [] _ rfl rfl rfl 0 []

/-- C9: from every state whose cursor is not negative, `getNewProxy` never fails with an
index out of range and makes at most two passes, whatever the other goroutines do while it
sleeps: if the first pass ends with `foundRateLimited` set, then after any critical
sections of other goroutines the cursor is at or past the end of the sequence, the retry
pass examines no entry and changes nothing, and the call returns found=false. -/
theorem getNewProxy_terminates (fuel : Nat) (others : List (List Op)) (s : Sys)
    (h0 : 0 ≤ s.pool.proxyIndex) :
    (getNewProxy (fuel + 2) others s ≠ Acquire.timeout ∧
      getNewProxy (fuel + 2) others s ≠ Acquire.crash) ∧
    (∀ pool1, scanPass s.pool = Scan.done true pool1 →
      ∀ s2 evs, run { s with pool := pool1 } (others.headD []) = some (s2, evs) →
        (s2.pool.proxyList.length : Int) ≤ s2.pool.proxyIndex ∧
        scanPass s2.pool = Scan.done false s2.pool ∧
        getNewProxy (fuel + 2) others s = Acquire.ret "" false s2) ∧
    ((∀ pool1, scanPass s.pool = Scan.done true pool1 →
        run { s with pool := pool1 } (others.headD []) ≠ none) →
      ∃ p found s2, getNewProxy (fuel + 2) others s = Acquire.ret p found s2) := by
  have hsleep : ∀ pool1, scanPass s.pool = Scan.done true pool1 →
      ∀ s2 evs, run { s with pool := pool1 } (others.headD []) = some (s2, evs) →
        (s2.pool.proxyList.length : Int) ≤ s2.pool.proxyIndex ∧
        scanPass s2.pool = Scan.done false s2.pool ∧
        getNewProxy (fuel + 2) others s = Acquire.ret "" false s2 := by
    intro pool1 hscan s2 evs hrun
    have hpool1 := (scanPass_done_facts hscan).1
    have hm := (run_unscanned _ _ s2 evs hrun).1
    have hend : s2.pool.unscanned ≤ 0 := by
      simp only [Pool.unscanned, hpool1] at hm ⊢
      omega
    have hlen : (s2.pool.proxyList.length : Int) ≤ s2.pool.proxyIndex := by
      simp only [Pool.unscanned] at hend; omega
    refine ⟨hlen, scanPass_of_end _ hlen, ?_⟩
    rw [getNewProxy]
    simp only [hscan, hrun]
    exact getNewProxy_of_end fuel _ s2 hend
  have hspec := scanPass_spec s.pool h0
  refine ⟨?_, hsleep, ?_⟩
  · cases hscan : scanPass s.pool with
    | found q pool =>
      rw [getNewProxy]
      simp only [hscan]
      exact ⟨fun hc => (by cases hc), fun hc => (by cases hc)⟩
    | done b pool =>
      cases b with
      | false =>
        rw [getNewProxy]
        simp only [hscan]
        exact ⟨fun hc => (by cases hc), fun hc => (by cases hc)⟩
      | true =>
        cases hrun : run { s with pool := pool } (others.headD []) with
        | none =>
          rw [getNewProxy]
          simp only [hscan, hrun]
          exact ⟨fun hc => (by cases hc), fun hc => (by cases hc)⟩
        | some r =>
          rw [(hsleep pool hscan r.1 r.2 hrun).2.2]
          exact ⟨fun hc => (by cases hc), fun hc => (by cases hc)⟩
    | crash => rw [hscan] at hspec; exact hspec.elim
    | timeout => rw [hscan] at hspec; exact hspec.elim
  · intro hcan
    cases hscan : scanPass s.pool with
    | found q pool =>
      rw [getNewProxy]
      simp only [hscan]
      exact ⟨_, _, _, rfl⟩
    | done b pool =>
      cases b with
      | false =>
        rw [getNewProxy]
        simp only [hscan]
        exact ⟨_, _, _, rfl⟩
      | true =>
        cases hrun : run { s with pool := pool } (others.headD []) with
        | none => exact absurd hrun (hcan pool hscan)
        | some r => exact ⟨_, _, _, (hsleep pool hscan r.1 r.2 hrun).2.2⟩
    | crash => rw [hscan] at hspec; exact hspec.elim
    | timeout => rw [hscan] at hspec; exact hspec.elim

/-! ## Exhaustion -/

/-- C3 (amended): when `getNewProxy` returns found=false, its final pass is either its
first pass, from the state of the call, or the retry pass, from the state that the first
pass and the other goroutines left when the sleep ended. In the state where that final
pass started every entry at or after the cursor has its InUse flag set, and the pass only
moved the cursor to the end; entries before the cursor are not examined, and an entry
with its InUse flag set may be RateLimited as well. -/
theorem getNewProxy_not_found_final_pass (fuel : Nat) (others : List (List Op))
    (s s2 : Sys) (p : String) (h : getNewProxy fuel others s = Acquire.ret p false s2) :
    p = "" ∧ ∃ sf : Sys,
      (sf = s ∨ ∃ pool1 evs, scanPass s.pool = Scan.done true pool1 ∧
        run { s with pool := pool1 } (others.headD []) = some (sf, evs)) ∧
      scanPass sf.pool = Scan.done false s2.pool ∧
      s2 = { sf with pool := s2.pool } ∧
      s2.pool = { sf.pool with
        proxyIndex := max sf.pool.proxyIndex (sf.pool.proxyList.length : Int) } ∧
      ∀ j : Nat, sf.pool.proxyIndex ≤ (j : Int) → ∀ q, sf.pool.proxyList.get? j = some q →
        sf.pool.usedProxies.get q = true := by
  cases fuel with
  | zero =>
    simp only [getNewProxy] at h
    cases h
  | succ fuel =>
    simp only [getNewProxy] at h
    cases hscan : scanPass s.pool with
    | found q pool =>
      rw [hscan] at h
      simp only [Acquire.ret.injEq] at h
      exact absurd h.2.1 (by decide)
    | done b pool =>
      rw [hscan] at h
      cases b with
      | false =>
        simp only [Acquire.ret.injEq] at h
        obtain ⟨hp, _, hs2⟩ := h
        subst hs2
        obtain ⟨_, hpool, _, hfalse⟩ := scanPass_done_spec hscan
        exact ⟨hp.symm, s, Or.inl rfl, hscan, rfl, hpool, (hfalse rfl).2⟩
      | true =>
        simp only at h
        cases hrun : run { s with pool := pool } (others.headD []) with
        | none => rw [hrun] at h; cases h
        | some r =>
          obtain ⟨s1, evs⟩ := r
          rw [hrun] at h
          simp only at h
          have hpool1 := (scanPass_done_facts hscan).1
          have hm := (run_unscanned _ _ s1 evs hrun).1
          have hend : s1.pool.unscanned ≤ 0 := by
            simp only [Pool.unscanned, hpool1] at hm ⊢
            omega
          have hlen : (s1.pool.proxyList.length : Int) ≤ s1.pool.proxyIndex := by
            simp only [Pool.unscanned] at hend; omega
          cases fuel with
          | zero =>
            simp only [getNewProxy] at h
            cases h
          | succ fuel =>
            rw [getNewProxy_of_end fuel _ s1 hend] at h
            simp only [Acquire.ret.injEq] at h
            obtain ⟨hp, _, hs2⟩ := h
            subst hs2
            refine ⟨hp.symm, s1, Or.inr ⟨pool, evs, rfl, hrun⟩, scanPass_of_end _ hlen, rfl,
              ?_, ?_⟩
            · have hmax : max s1.pool.proxyIndex (s1.pool.proxyList.length : Int) =
                  s1.pool.proxyIndex := max_eq_left hlen
              rw [hmax]
            · intro j hj q hq
              obtain ⟨hl, _⟩ := List.get?_eq_some.mp hq
              omega
    | crash => rw [hscan] at h; cases h
    | timeout => rw [hscan] at h; cases h

/-- Witness for C3 (amended): on the sequence `["a", "a"]` after `a` was acquired, the
cursor is 1 and the call examines entry 1, whose identifier is InUse, and returns
found=false. -/
theorem getNewProxy_not_found_final_pass_witness :
    ((stateAfter (Sys.fresh ["a", "a"]) [Op.scan]).pool.proxyIndex = 1 ∧
      (stateAfter (Sys.fresh ["a", "a"]) [Op.scan]).pool.proxyList = ["a", "a"] ∧
      (stateAfter (Sys.fresh ["a", "a"]) [Op.scan]).pool.usedProxies.get "a" = true) ∧
    ("" : String) = "" ∧ ∃ sf : Sys,
      (sf = stateAfter (Sys.fresh ["a", "a"]) [Op.scan] ∨ ∃ pool1 evs,
        scanPass (stateAfter (Sys.fresh ["a", "a"]) [Op.scan]).pool = Scan.done true pool1 ∧
        run { stateAfter (Sys.fresh ["a", "a"]) [Op.scan] with pool := pool1 }
          (([] : List (List Op)).headD []) = some (sf, evs)) ∧
      scanPass sf.pool =
        Scan.done false (stateAfter (Sys.fresh ["a", "a"]) [Op.scan, Op.scan]).pool ∧
      stateAfter (Sys.fresh ["a", "a"]) [Op.scan, Op.scan] =
        { sf with pool := (stateAfter (Sys.fresh ["a", "a"]) [Op.scan, Op.scan]).pool } ∧
      (stateAfter (Sys.fresh ["a", "a"]) [Op.scan, Op.scan]).pool = { sf.pool with
        proxyIndex := max sf.pool.proxyIndex (sf.pool.proxyList.length : Int) } ∧
      ∀ j : Nat, sf.pool.proxyIndex ≤ (j : Int) → ∀ q, sf.pool.proxyList.get? j = some q →
        sf.pool.usedProxies.get q = true :=
  ⟨⟨by decide, by decide, by decide⟩,
    getNewProxy_not_found_final_pass 1 [] (stateAfter (Sys.fresh ["a", "a"]) [Op.scan])
      (stateAfter (Sys.fresh ["a", "a"]) [Op.scan, Op.scan]) "" rfl⟩

/-- C3 fails as stated. On the sequence `["p1"]`: after `p1` was acquired, released and
its timer fired, `p1` is in the sequence with both flags unset, yet `getNewProxy` returns
found=false; and after `p1` was acquired and released, `p1` is in the sequence and marked
RateLimited, yet `getNewProxy` returns found=false without sleeping. -/
theorem getNewProxy_not_found_although_available :
    (eventsOf (Sys.fresh ["p1"]) [Op.scan, Op.release "p1", Op.expire 0] =
        [Event.acquired "p1", Event.scheduled 0 "p1", Event.fired 0 "p1"] ∧
      getNewProxy 2 [] (stateAfter (Sys.fresh ["p1"]) [Op.scan, Op.release "p1", Op.expire 0]) =
        Acquire.ret "" false
          (stateAfter (Sys.fresh ["p1"]) [Op.scan, Op.release "p1", Op.expire 0, Op.scan]) ∧
      (stateAfter (Sys.fresh ["p1"])
        [Op.scan, Op.release "p1", Op.expire 0, Op.scan]).pool.proxyList = ["p1"] ∧
      (stateAfter (Sys.fresh ["p1"])
        [Op.scan, Op.release "p1", Op.expire 0, Op.scan]).pool.usedProxies.get "p1" = false ∧
      (stateAfter (Sys.fresh ["p1"])
        [Op.scan, Op.release "p1", Op.expire 0, Op.scan]).pool.rateLimitedProxies.get "p1"
        = false) ∧
    (eventsOf (Sys.fresh ["p1"]) [Op.scan, Op.release "p1"] =
        [Event.acquired "p1", Event.scheduled 0 "p1"] ∧
      getNewProxy 2 [] (stateAfter (Sys.fresh ["p1"]) [Op.scan, Op.release "p1"]) =
        Acquire.ret "" false
          (stateAfter (Sys.fresh ["p1"]) [Op.scan, Op.release "p1", Op.scan]) ∧
      (stateAfter (Sys.fresh ["p1"])
        [Op.scan, Op.release "p1", Op.scan]).pool.proxyList = ["p1"] ∧
      (stateAfter (Sys.fresh ["p1"])
        [Op.scan, Op.release "p1", Op.scan]).pool.rateLimitedProxies.get "p1" = true) := by
  refine ⟨⟨by decide, rfl, by decide, by decide, by decide⟩,
    ⟨by decide, rfl, by decide, by decide⟩⟩

/-- Witness for C9: on the sequence `["a"]` with `a` marked RateLimited and not InUse, the
first pass skips `a` and the call sleeps; the timer of `a` fires meanwhile, and the retry
pass still returns found=false. -/
theorem getNewProxy_terminates_witness :
    getNewProxy (0 + 2) [[Op.expire 0]] (stateAfter (Sys.fresh ["a"]) [Op.release "a"]) =
      Acquire.ret "" false
        (stateAfter (Sys.fresh ["a"]) [Op.release "a", Op.scan, Op.expire 0]) :=
  ((getNewProxy_terminates 0 [[Op.expire 0]] (stateAfter (Sys.fresh ["a"]) [Op.release "a"])
    (by decide)).2.1
    (stateAfter (Sys.fresh ["a"]) [Op.release "a", Op.scan]).pool rfl
    (stateAfter (Sys.fresh ["a"]) [Op.release "a", Op.scan, Op.expire 0])
    [Event.fired 0 "a"] rfl).2.2

/-! ## The cursor adjustment of `removeProxy` -/

theorem removeLoop_single (t : String) : ∀ (front back : List String) (i : Nat)
    (acc : List String) (idx : Int), t ∉ front → t ∉ back →
    removeLoop t (front ++ t :: back) i acc idx =
      (acc ++ front ++ back, if ((i + front.length : Nat) : Int) < idx then idx - 1 else idx) := by
  intro front
  induction front with
  | nil =>
    intro back i acc idx _ hback
    simp only [List.nil_append, List.length_nil, Nat.add_zero, List.append_nil]
    unfold removeLoop
    rw [if_neg (not_not.mpr rfl)]
    by_cases hi : (i : Int) < idx
    · rw [if_pos hi, if_pos hi, removeLoop_of_not_mem t back _ _ _ hback]
    · rw [if_neg hi, if_neg hi, removeLoop_of_not_mem t back _ _ _ hback]
  | cons q front ih =>
    intro back i acc idx hfront hback
    have hq : q ≠ t := fun h => hfront (by simp [h])
    have hfront1 : t ∉ front := fun h => hfront (by simp [h])
    simp only [List.cons_append]
    unfold removeLoop
    rw [if_pos hq, ih back (i + 1) (acc ++ [q]) idx hfront1 hback]
    have : i + 1 + front.length = i + (q :: front).length := by
      simp only [List.length_cons]; omega
    rw [this]
    simp

/-- Where the target occurs at most once, `removeProxy` does keep the scan position: the
cursor stays within the new sequence and the part not yet scanned is the old one without
the target. -/
theorem removeProxy_rest_of_count_le_one (s : Pool) (t : String) (h0 : 0 ≤ s.proxyIndex)
    (hlen : s.proxyIndex ≤ (s.proxyList.length : Int)) (hcount : s.proxyList.count t ≤ 1) :
    0 ≤ (removeProxy s t).proxyIndex ∧
      (removeProxy s t).proxyIndex ≤ ((removeProxy s t).proxyList.length : Int) ∧
      (removeProxy s t).proxyList = s.proxyList.filter (fun p => decide (p ≠ t)) ∧
      (removeProxy s t).rest = s.rest.filter (fun p => decide (p ≠ t)) := by
  refine ⟨removeProxy_nonneg s t h0, ?_, removeProxy_proxyList s t, ?_⟩
  all_goals
    by_cases hmem : t ∈ s.proxyList
    · obtain ⟨front, back, hl, hfront⟩ := List.eq_append_cons_of_mem hmem
      have hback : t ∉ back := by
        intro hb
        have h1 : 0 < back.count t := List.count_pos_iff.mpr hb
        rw [hl] at hcount
        simp only [List.count_append, List.count_cons_self] at hcount
        omega
      have hloop := removeLoop_single t front back 0 [] s.proxyIndex hfront hback
      have hf1 : front.filter (fun p => decide (p ≠ t)) = front :=
        List.filter_eq_self.mpr (fun a ha => by
          simp only [ne_eq, decide_not, Bool.not_eq_eq_eq_not, Bool.not_true,
            decide_eq_false_iff_not]
          exact fun hc => hfront (hc ▸ ha))
      have hf2 : back.filter (fun p => decide (p ≠ t)) = back :=
        List.filter_eq_self.mpr (fun a ha => by
          simp only [ne_eq, decide_not, Bool.not_eq_eq_eq_not, Bool.not_true,
            decide_eq_false_iff_not]
          exact fun hc => hback (hc ▸ ha))
      simp only [removeProxy, Pool.rest, hl, hloop, List.nil_append, Nat.zero_add] at hlen ⊢
      simp only [List.length_append, List.length_cons, Nat.cast_add, Nat.cast_one] at hlen ⊢
      by_cases hi : (front.length : Int) < s.proxyIndex
      · simp only [hi, if_true]
        first
          | omega
          | (obtain ⟨d, hd⟩ : ∃ d : Nat, s.proxyIndex = (front.length : Int) + 1 + d :=
              ⟨(s.proxyIndex - front.length - 1).toNat, by omega⟩
             have e1 : (s.proxyIndex - 1).toNat = front.length + d := by omega
             have e2 : s.proxyIndex.toNat = front.length + (d + 1) := by omega
             rw [e1, e2, List.drop_append, List.drop_append, List.drop_succ_cons]
             exact (List.filter_eq_self.mpr (fun a ha => by
               simp only [ne_eq, decide_not, Bool.not_eq_eq_eq_not, Bool.not_true,
                 decide_eq_false_iff_not]
               exact fun hc => hback (hc ▸ List.mem_of_mem_drop ha))).symm)
      · simp only [hi, if_false]
        first
          | omega
          | (have hle : s.proxyIndex.toNat ≤ front.length := by omega
             rw [List.drop_append_of_le_length hle, List.drop_append_of_le_length hle,
               List.filter_append, List.filter_cons_of_neg (by simp), hf2]
             congr 1
             exact (List.filter_eq_self.mpr (fun a ha => by
               simp only [ne_eq, decide_not, Bool.not_eq_eq_eq_not, Bool.not_true,
                 decide_eq_false_iff_not]
               exact fun hc => hfront (hc ▸ List.mem_of_mem_drop ha))).symm)
    · have hloop := removeLoop_of_not_mem t s.proxyList 0 [] s.proxyIndex hmem
      simp only [removeProxy, Pool.rest, hloop, List.nil_append]
      first
        | exact hlen
        | exact (List.filter_eq_self.mpr (fun a ha => by
            simp only [ne_eq, decide_not, Bool.not_eq_eq_eq_not, Bool.not_true,
              decide_eq_false_iff_not]
            exact fun hc => hmem (hc ▸ List.mem_of_mem_drop ha))).symm

/-- C10 is violated by the code when the target occurs twice before the cursor. The pool
`["a", "a", "b"]` reaches cursor 2 (acquire `a`, release it, its timer fires, acquire `a`
again); `removeProxy("a")` then leaves the sequence `["b"]` with cursor 1, so the part not
yet scanned is empty instead of `["b"]` and the next pass finds nothing. On
`["a", "b", "a"]` scanned to its end (cursor 3) it leaves `["b"]` with cursor 2, past
the end. -/
theorem removeProxy_cursor_with_duplicates :
    ((stateAfter (Sys.fresh ["a", "a", "b"])
        [Op.scan, Op.release "a", Op.expire 0, Op.scan]).pool.proxyList = ["a", "a", "b"] ∧
      (stateAfter (Sys.fresh ["a", "a", "b"])
        [Op.scan, Op.release "a", Op.expire 0, Op.scan]).pool.proxyIndex = 2 ∧
      (stateAfter (Sys.fresh ["a", "a", "b"])
        [Op.scan, Op.release "a", Op.expire 0, Op.scan]).pool.rest.filter
          (fun p => decide (p ≠ "a")) = ["b"] ∧
      (removeProxy (stateAfter (Sys.fresh ["a", "a", "b"])
        [Op.scan, Op.release "a", Op.expire 0, Op.scan]).pool "a").proxyList = ["b"] ∧
      (removeProxy (stateAfter (Sys.fresh ["a", "a", "b"])
        [Op.scan, Op.release "a", Op.expire 0, Op.scan]).pool "a").proxyIndex = 1 ∧
      (removeProxy (stateAfter (Sys.fresh ["a", "a", "b"])
        [Op.scan, Op.release "a", Op.expire 0, Op.scan]).pool "a").rest = [] ∧
      eventsOf (Sys.fresh ["a", "a", "b"])
        [Op.scan, Op.release "a", Op.expire 0, Op.scan, Op.remove "a", Op.scan] =
        [Event.acquired "a", Event.scheduled 0 "a", Event.fired 0 "a", Event.acquired "a",
          Event.removed "a", Event.notFound false]) ∧
    (eventsOf (Sys.fresh ["a", "b", "a"]) [Op.scan, Op.scan, Op.scan] =
        [Event.acquired "a", Event.acquired "b", Event.notFound false] ∧
      (stateAfter (Sys.fresh ["a", "b", "a"]) [Op.scan, Op.scan, Op.scan]).pool.proxyIndex = 3 ∧
      (removeProxy (stateAfter (Sys.fresh ["a", "b", "a"])
        [Op.scan, Op.scan, Op.scan]).pool "a").proxyList = ["b"] ∧
      (removeProxy (stateAfter (Sys.fresh ["a", "b", "a"])
        [Op.scan, Op.scan, Op.scan]).pool "a").proxyIndex = 2) := by
  refine ⟨⟨by decide, by decide, by decide, by decide, by decide, by decide, by decide⟩,
    ⟨by decide, by decide, by decide, by decide⟩⟩

end ProxyPool
